import Mathlib

/-!
Verification of the EAGLE speculative-decoding plugin
(`modelopt/torch/speculative/plugins/transformers.py`).

Shallow embedding conventions:
* A sequence-indexed tensor slice is a `List` over its sequence dimension;
  the per-position payload (a vocab row, a token id) is an abstract type.
* Floating-point scalars are idealised as rationals `ℚ` (structural claims)
  or reals `ℝ` (the softmax-based loss), with `0.8 = 4/5` and
  `1e-5 = 1/100000`.
* The running 4-D attention mask `[bsz, heads, tgt, src]` is an entry
  function over its index space; writes broadcast over batch/head exactly
  as the source's advanced indexing does.
* Fallible code (`loss_list[i]` on a too-short Python list raises
  `IndexError`) is modelled with `Except`.
-/

/-! ### Shift-with-zero-padding

`torch.cat((x[:, 1:], zeropadding), dim=1)` from `HFEagleModel.forward`
(lines 659-680): drop the first sequence position and append one pad
element at the tail.  Applied each non-final rollout step to `logits`,
`input_ids` and `loss_mask`. -/

/-- One left shift with a zero-pad appended at the tail, along the
sequence dimension: `torch.cat((x[:, 1:], zeropadding), dim=1)`. -/
def shiftLeft {α : Type} (xs : List α) (pad : α) : List α :=
  xs.drop 1 ++ [pad]

/-- Iterated left shift: `shiftIter pad k xs` applies `shiftLeft · pad`
`k` times. -/
def shiftIter {α : Type} (pad : α) : Nat → List α → List α
  | 0, xs => xs
  | k + 1, xs => shiftIter pad k (shiftLeft xs pad)

/-! ### The rollout state machine

`HFEagleModel.forward` (lines 573-688): a fixed four-step loop.  Each step
invokes the eagle module, optionally records the classification loss, and —
for the first three steps — shifts `logits` / `input_ids` / `loss_mask`
left with zero-padding and blocks one further sub-diagonal of the running
square attention mask.

The eagle module's numeric outputs and the value of `_eagle_loss` at each
step are abstracted as parameters (`draft`, `stepLosses`); the control
flow, recording, shifting and mask mutation are translated literally. -/

/-- The pair returned by `HFEagleModel._eagle_loss` at one rollout step:
`regression_loss, classification_loss` in source order. -/
structure StepLosses where
  regression : ℚ
  classification : ℚ

/-- The per-step decay weights, `loss_weight = [0.8 ** i for i in range(4)]`
(line 574), with the float literal `0.8` idealised as `4/5`. -/
def loss_weight : List ℚ :=
  (List.range 4).map (fun i => (4 / 5 : ℚ) ^ i)

/-- The terminal combination
`loss = sum([loss_weight[i] * loss_list[i] for i in range(4)])` (line 688).
Indexing a Python list out of range raises `IndexError`; the comprehension
evaluates `loss_list[i]` for every `i in range(4)` before summing, so a
short `loss_list` fails rather than being zero-filled.  `loss_weight` has
length 4, so its lookup never falls back to the default. -/
def finalLoss (loss_list : List ℚ) : Except String ℚ :=
  Except.map List.sum <|
    (List.range 4).mapM fun i =>
      match loss_list[i]? with
      | some v => Except.ok ((loss_weight[i]?.getD 0) * v)
      | none => Except.error "IndexError"

/-- The mutable state threaded through the rollout loop of
`HFEagleModel.forward`.  `attn_mask` is the running square attention mask
(entries uniform over batch/head, as every write in the loop is). -/
structure RolloutState (α ι : Type) where
  logits : List α
  input_ids : List ι
  loss_mask : Option (List ℚ)
  loss_list : List ℚ
  eagle_logits : List α
  attn_mask : Nat → Nat → ℚ

/-- The call-level parameters of the rollout: the eagle module's draft
logits at each step, the `_eagle_loss` values at each step, the zero pads,
the pre-loop sequence length, and `torch.finfo(dtype).min`. -/
structure RolloutParams (α ι : Type) where
  draft : Nat → List α
  stepLosses : Nat → StepLosses
  zeroLogit : α
  zeroId : ι
  seqLength : Nat
  fmin : ℚ

/-- The attention-mask write of step `i` (lines 682-685):
`ind0 = arange(S)[i:]`, `ind1 = arange(S)[:S-i]`, and
`attention_mask[:, :, ind0, ind1] = finfo.min` pairs the two index vectors
elementwise, blocking exactly the entries `(i + j, j)` for `j < S - i`. -/
def blockStep (S : Nat) (fmin : ℚ) (i : Nat) (m : Nat → Nat → ℚ) :
    Nat → Nat → ℚ :=
  fun r c => if c < S - i ∧ r = i + c then fmin else m r c

/-- One iteration of the `for i in range(4)` loop (lines 609-685): produce
the draft logits, record the classification loss when `loss_mask` is
present, and — when `i < 3` — shift `logits`, `input_ids`, `loss_mask`
left with zero-padding and block sub-diagonal `i` of the attention mask. -/
def rolloutStep {α ι : Type} (p : RolloutParams α ι)
    (st : RolloutState α ι) (i : Nat) : RolloutState α ι :=
  let eagleLogits := p.draft i
  let lossList :=
    match st.loss_mask with
    | some _ => st.loss_list ++ [(p.stepLosses i).classification]
    | none => st.loss_list
  if i < 3 then
    { logits := shiftLeft st.logits p.zeroLogit
      input_ids := shiftLeft st.input_ids p.zeroId
      loss_mask := st.loss_mask.map (fun lm => shiftLeft lm 0)
      loss_list := lossList
      eagle_logits := eagleLogits
      attn_mask := blockStep p.seqLength p.fmin i st.attn_mask }
  else
    { st with loss_list := lossList, eagle_logits := eagleLogits }

/-- The first `k` iterations of the rollout loop. -/
def rolloutIter {α ι : Type} (p : RolloutParams α ι)
    (st : RolloutState α ι) (k : Nat) : RolloutState α ι :=
  (List.range k).foldl (rolloutStep p) st

/-- The full rollout of `HFEagleModel.forward`: `loss_list = []` before the
loop (line 573), then all four iterations.  (`eagle_logits` is first
assigned inside the loop; its initial value `[]` is never observed.) -/
def forwardRollout {α ι : Type} (p : RolloutParams α ι)
    (logits0 : List α) (input_ids0 : List ι)
    (loss_mask0 : Option (List ℚ)) (mask0 : Nat → Nat → ℚ) :
    RolloutState α ι :=
  rolloutIter p
    { logits := logits0
      input_ids := input_ids0
      loss_mask := loss_mask0
      loss_list := []
      eagle_logits := []
      attn_mask := mask0 } 4

/-- The total loss returned by `HFEagleModel.forward` (line 688), applied
to the rollout's accumulated `loss_list`. -/
def forwardLoss {α ι : Type} (p : RolloutParams α ι)
    (logits0 : List α) (input_ids0 : List ι)
    (loss_mask0 : Option (List ℚ)) (mask0 : Nat → Nat → ℚ) :
    Except String ℚ :=
  finalLoss (forwardRollout p logits0 input_ids0 loss_mask0 mask0).loss_list

/-! ### Tree attention mask builder

`EagleModule._prepare_tree_attention_mask` (lines 185-236).  A 4-D mask
`[bsz, num_heads, tgt_len, src_len]` is its shape together with an entry
function; claims only constrain in-bounds indices. -/

/-- A 4-D attention mask: shape plus entry function (indexed
batch, head, row, column). -/
structure AttnMask where
  bsz : Nat
  numHeads : Nat
  tgtLen : Nat
  srcLen : Nat
  entry : Nat → Nat → Nat → Nat → ℚ

/-- The sequence of diagonal writes performed by the two nested loops of
`_prepare_tree_attention_mask` (lines 226-235): for each whole block
`block_idx < past_key_values_length // seq_lens` and each
`i < min(tgt_len, seq_lens)`, write position
`(i, src_len + block_idx * seq_lens + i)` provided the column is within
the extended width. -/
def treeWrites (srcLen seqLens pastLen tgtLen : Nat) : List (Nat × Nat) :=
  (List.range (pastLen / seqLens)).flatMap fun blockIdx =>
    (List.range (min tgtLen seqLens)).filterMap fun i =>
      if srcLen + blockIdx * seqLens + i < srcLen + pastLen then
        some (i, srcLen + blockIdx * seqLens + i)
      else
        none

/-- `EagleModule._prepare_tree_attention_mask`: return the mask unchanged
when there is no cache yet; otherwise allocate a fully blocked mask of
extended width `src_len + past_key_values_length` (sentinel
`torch.finfo(dtype).min`, the parameter `fmin`), copy the original square
region into the low `src_len` columns, then apply the diagonal writes.
(The source also maps a `None` input mask to `None`; that branch carries
no mask to model.)  The base entry function extends the in-bounds copy
`extended_mask[:, :, :, :src_len] = attention_mask` to all of `Nat⁴`;
claims only read in-bounds indices. -/
def prepTreeMask (mask : AttnMask) (seqLens pastLen : Nat) (fmin : ℚ) :
    AttnMask :=
  if pastLen = 0 then mask
  else
    { bsz := mask.bsz
      numHeads := mask.numHeads
      tgtLen := mask.tgtLen
      srcLen := mask.srcLen + pastLen
      entry :=
        (treeWrites mask.srcLen seqLens pastLen mask.tgtLen).foldl
          (fun f q => fun b h r c =>
            if r = q.1 ∧ c = q.2 then 0 else f b h r c)
          (fun b h r c =>
            if c < mask.srcLen then mask.entry b h r c else fmin) }

/-! ### The modified draft decoder layer

`ModifiedLlamaDecoderLayer.forward` (lines 373-416).  The per-position
feature payloads are abstract types: `V` for a base-width feature vector,
`W` for the doubled-width concatenation.  The layer's sub-modules
(`input_layernorm`, `hidden_norm`, `self_attn` — which closes over the
attention mask, positions and cache —, `post_attention_layernorm`, `mlp`)
are opaque functions. -/

/-- The sub-modules of `ModifiedLlamaDecoderLayer`. -/
structure DraftLayerOps (V W : Type) where
  input_layernorm : V → V
  hidden_norm : V → V
  cat : V → V → W
  self_attn : W → V
  post_attention_layernorm : V → V
  mlp : V → V

/-- `ModifiedLlamaDecoderLayer.forward` on the hidden-state stream:
normalise the two input streams, concatenate along the feature axis, run
self-attention, then the post-attention norm and the MLP.  The source
binds `residual = hidden_states` and never uses it (every residual
addition is commented out); the dead binding is kept. -/
def decoderLayerForward {V W : Type} (ops : DraftLayerOps V W)
    (hidden_states input_embeds : V) : V :=
  let residual := hidden_states
  let embeds := ops.input_layernorm input_embeds
  let normed_hidden := ops.hidden_norm hidden_states
  let concatenated := ops.cat embeds normed_hidden
  let attn_out := ops.self_attn concatenated
  let post_normed := ops.post_attention_layernorm attn_out
  let _ := residual
  ops.mlp post_normed

/-! ### The auxiliary loss

`HFEagleModel._eagle_loss` (lines 699-711), over the reals.  Tensors are
functions over `Fin`-indexed dimensions; `nn.Softmax(dim=2)` and
`nn.LogSoftmax(dim=2)` act along the vocabulary axis. -/

/-- Softmax along one axis: `exp (x v) / Σ exp`. -/
noncomputable def softmax {V : Nat} (x : Fin V → ℝ) : Fin V → ℝ :=
  fun v => Real.exp (x v) / ∑ w, Real.exp (x w)

/-- Log-softmax along one axis, in the stable form `x v - log Σ exp` used
by `nn.LogSoftmax`. -/
noncomputable def logSoftmax {V : Nat} (x : Fin V → ℝ) : Fin V → ℝ :=
  fun v => x v - Real.log (∑ w, Real.exp (x w))

/-- Elementwise `nn.SmoothL1Loss(reduction="none")` with the default
`beta = 1`. -/
noncomputable def smoothL1 (x y : ℝ) : ℝ :=
  if |x - y| < 1 then (x - y) ^ 2 / 2 else |x - y| - 1 / 2

/-- `HFEagleModel._eagle_loss`: returns
`(regression_loss, classification_loss)` in source order.
Classification:
`-Σ_{b,s} mask b s * Σ_v softmax(logits) * logsoftmax(eagle_logits)`
divided by `(Σ mask + 1e-5)`.  Regression:
`Σ_{b,s} mask b s * mean_h smoothL1(eagle_hidden, hidden)` over the same
denominator (the `[:, :, None]` broadcast of the mask turns the
hidden-axis mean of `mask * r` into `mask b s * (Σ_h r) / H`). -/
noncomputable def eagleLoss (B S V H : Nat)
    (hidden_states : Fin B → Fin S → Fin H → ℝ)
    (logits : Fin B → Fin S → Fin V → ℝ)
    (eagle_hidden_states : Fin B → Fin S → Fin H → ℝ)
    (eagle_logits : Fin B → Fin S → Fin V → ℝ)
    (loss_mask : Fin B → Fin S → ℝ) : ℝ × ℝ :=
  let maskSum : ℝ := ∑ b, ∑ s, loss_mask b s
  let classification : ℝ :=
    -(∑ b, ∑ s, loss_mask b s *
        ∑ v, softmax (logits b s) v * logSoftmax (eagle_logits b s) v) /
      (maskSum + 1 / 100000)
  let regression : ℝ :=
    (∑ b, ∑ s, loss_mask b s *
        ((∑ hh, smoothL1 (eagle_hidden_states b s hh) (hidden_states b s hh))
          / H)) /
      (maskSum + 1 / 100000)
  (regression, classification)

/-- Shannon entropy of a distribution over `Fin V`, used to state what the
classification loss evaluates to on identical inputs (amended form of the
spec sentence claiming it is `0`). -/
noncomputable def shannonEntropy {V : Nat} (p : Fin V → ℝ) : ℝ :=
  -∑ v, p v * Real.log (p v)

/-! ### Concrete instances used by the witness theorems -/

/-- A small concrete parameter record (sequence length 2,
`finfo.min = -1`). -/
def sampleParams : RolloutParams ℚ ℚ :=
  { draft := fun _ => []
    stepLosses := fun _ => ⟨0, 0⟩
    zeroLogit := 0
    zeroId := 0
    seqLength := 2
    fmin := -1 }

/-- A small concrete rollout state whose square attention mask is fully
allowed. -/
def sampleState : RolloutState ℚ ℚ :=
  { logits := []
    input_ids := []
    loss_mask := none
    loss_list := []
    eagle_logits := []
    attn_mask := fun _ _ => 0 }

/-- A concrete 1×1×2×2 all-allowed square mask. -/
def sampleMask : AttnMask :=
  { bsz := 1, numHeads := 1, tgtLen := 2, srcLen := 2,
    entry := fun _ _ _ _ => 0 }

/-- Concrete decoder-layer sub-modules over `ℚ` with constant
normalisations, so that distinct raw inputs normalise identically. -/
def sampleOps : DraftLayerOps ℚ ℚ :=
  { input_layernorm := fun _ => 0
    hidden_norm := fun _ => 0
    cat := fun a b => a + b
    self_attn := id
    post_attention_layernorm := id
    mlp := fun x => x + 1 }

/-! ### Helper lemmas -/

theorem shiftIter_eq_drop_append {α : Type} (pad : α) :
    ∀ (k : Nat) (xs : List α), k ≤ xs.length →
      shiftIter pad k xs = xs.drop k ++ List.replicate k pad := by
  intro k
  induction k with
  | zero => intro xs _; simp [shiftIter]
  | succ k ih =>
    intro xs hk
    have hne : xs ≠ [] := by
      intro h
      subst h
      simp at hk
    have hlen : (shiftLeft xs pad).length = xs.length := by
      simp [shiftLeft]
      omega
    have hk2 : k ≤ (shiftLeft xs pad).length := by omega
    have step : (shiftLeft xs pad).drop k = xs.drop (k + 1) ++ [pad] := by
      have h1 : xs.length - 1 ≥ k := by omega
      simp only [shiftLeft]
      rw [List.drop_append_eq_append_drop]
      have hdl : (xs.drop 1).length = xs.length - 1 := by simp
      have : k - (xs.drop 1).length = 0 := by omega
      rw [this, List.drop_drop, List.drop_zero, Nat.add_comm]
    calc shiftIter pad (k + 1) xs
        = shiftIter pad k (shiftLeft xs pad) := rfl
      _ = (shiftLeft xs pad).drop k ++ List.replicate k pad := ih _ hk2
      _ = (xs.drop (k + 1) ++ [pad]) ++ List.replicate k pad := by rw [step]
      _ = xs.drop (k + 1) ++ List.replicate (k + 1) pad := by
          rw [List.append_assoc]
          congr 1

theorem foldlWrite_eq (ws : List (Nat × Nat))
    (g : Nat → Nat → Nat → Nat → ℚ) (b h r c : Nat) :
    (ws.foldl
        (fun f q => fun b h r c =>
          if r = q.1 ∧ c = q.2 then 0 else f b h r c) g) b h r c
      = if (r, c) ∈ ws then 0 else g b h r c := by
  induction ws generalizing g with
  | nil => simp
  | cons q ws ih =>
    simp only [List.foldl_cons, ih, List.mem_cons]
    by_cases hmem : (r, c) ∈ ws
    · simp [hmem]
    · by_cases hq : r = q.1 ∧ c = q.2
      · have : (r, c) = q := by
          obtain ⟨h1, h2⟩ := hq
          cases q
          simp_all
        simp [hmem, hq, this]
      · have : ¬(r, c) = q := by
          intro h
          apply hq
          cases q
          cases h
          exact ⟨rfl, rfl⟩
        simp [hmem, hq, this]

theorem mem_treeWrites (srcLen seqLens pastLen tgtLen : Nat) (r c : Nat) :
    (r, c) ∈ treeWrites srcLen seqLens pastLen tgtLen ↔
      ∃ k, k < pastLen / seqLens ∧ r < min tgtLen seqLens ∧
        c = srcLen + k * seqLens + r := by
  simp only [treeWrites, List.mem_flatMap, List.mem_filterMap,
    List.mem_range]
  constructor
  · rintro ⟨k, hk, i, hi, hsome⟩
    by_cases hlt : srcLen + k * seqLens + i < srcLen + pastLen
    · rw [if_pos hlt] at hsome
      have h1 : i = r ∧ srcLen + k * seqLens + i = c := by
        simpa [Prod.ext_iff] using hsome
      obtain ⟨h1, h2⟩ := h1
      subst h1
      exact ⟨k, hk, hi, h2.symm⟩
    · rw [if_neg hlt] at hsome
      exact absurd hsome (by simp)
  · rintro ⟨k, hk, hr, hc⟩
    refine ⟨k, hk, r, hr, ?_⟩
    have hcol : srcLen + k * seqLens + r < srcLen + pastLen := by
      have h1 : (k + 1) * seqLens ≤ (pastLen / seqLens) * seqLens :=
        Nat.mul_le_mul_right _ hk
      have h2 : (pastLen / seqLens) * seqLens ≤ pastLen :=
        Nat.div_mul_le_self pastLen seqLens
      have h3 : r < seqLens := lt_of_lt_of_le hr (Nat.min_le_right _ _)
      have : k * seqLens + r < (k + 1) * seqLens := by
        rw [Nat.succ_mul]
        omega
      omega
    rw [if_pos hcol, hc]

theorem prepTreeMask_entry (m : AttnMask) (s pastLen : Nat) (fmin : ℚ)
    (hpast : pastLen ≠ 0) (b h r c : Nat) :
    (prepTreeMask m s pastLen fmin).entry b h r c =
      if (r, c) ∈ treeWrites m.srcLen s pastLen m.tgtLen then 0
      else if c < m.srcLen then m.entry b h r c else fmin := by
  simp only [prepTreeMask, if_neg hpast]
  exact foldlWrite_eq _ _ b h r c

theorem rolloutIter_succ {α ι : Type} (p : RolloutParams α ι)
    (st : RolloutState α ι) (n : Nat) :
    rolloutIter p st (n + 1) = rolloutStep p (rolloutIter p st n) n := by
  simp [rolloutIter, List.range_succ]

theorem rolloutStep_attn_mask_fmin {α ι : Type} (p : RolloutParams α ι)
    (st : RolloutState α ι) (i r c : Nat)
    (h : st.attn_mask r c = p.fmin) :
    (rolloutStep p st i).attn_mask r c = p.fmin := by
  simp only [rolloutStep]
  split
  · simp only [blockStep]
    split
    · rfl
    · exact h
  · exact h

theorem sum_softmax_logSoftmax {V : Nat} (x : Fin V → ℝ) :
    ∑ v, softmax x v * logSoftmax x v = -shannonEntropy (softmax x) := by
  unfold shannonEntropy
  rw [neg_neg]
  apply Finset.sum_congr rfl
  intro v _
  congr 1
  have hpos : 0 < ∑ w, Real.exp (x w) :=
    Finset.sum_pos (fun w _ => Real.exp_pos _) ⟨v, Finset.mem_univ v⟩
  simp [logSoftmax, softmax,
    Real.log_div (Real.exp_ne_zero _) (ne_of_gt hpos), Real.log_exp]

/-! ### Claim theorems -/

/-- C1: a forward call that runs all four speculative steps with a
non-null `loss_mask` returns total loss
`Σ_{i<4} 0.8^i · classification_loss_i` — the geometrically decayed sum of
the per-step classification losses. -/
theorem C1_decayed_total_loss {α ι : Type} (p : RolloutParams α ι)
    (logits0 : List α) (input_ids0 : List ι) (lm : List ℚ)
    (mask0 : Nat → Nat → ℚ) :
    forwardLoss p logits0 input_ids0 (some lm) mask0 =
      Except.ok (∑ i ∈ Finset.range 4,
        (4 / 5 : ℚ) ^ i * (p.stepLosses i).classification) := by
  show Except.ok _ = _
  simp [forwardLoss, forwardRollout, rolloutIter, rolloutStep, finalLoss,
    loss_weight, Finset.sum_range_succ, List.range_succ]
  ring

/-- C3: when the rollout runs with `loss_mask = None`, no per-step loss is
recorded, and the terminal combination `loss_weight[i] * loss_list[i]`
fails with an `IndexError` propagated to the caller instead of returning a
zero-filled or shortened sum. -/
theorem C3_missing_loss_mask_fails {α ι : Type} (p : RolloutParams α ι)
    (logits0 : List α) (input_ids0 : List ι)
    (mask0 : Nat → Nat → ℚ) :
    forwardLoss p logits0 input_ids0 none mask0 =
      Except.error "IndexError" := rfl

/-- C6: with a `loss_mask` present, each rollout step receives both losses
from `_eagle_loss` but records only the classification loss: the
accumulator equals the list of per-step classification losses, and
replacing every step's regression loss by arbitrary values leaves the
accumulator unchanged. -/
theorem C6_classification_only_recorded {α ι : Type}
    (p : RolloutParams α ι) (rg : Nat → ℚ)
    (logits0 : List α) (input_ids0 : List ι) (lm : List ℚ)
    (mask0 : Nat → Nat → ℚ) :
    (forwardRollout p logits0 input_ids0 (some lm) mask0).loss_list
        = (List.range 4).map (fun i => (p.stepLosses i).classification)
    ∧ (forwardRollout
          { p with stepLosses :=
              fun i => ⟨rg i, (p.stepLosses i).classification⟩ }
          logits0 input_ids0 (some lm) mask0).loss_list
        = (forwardRollout p logits0 input_ids0 (some lm) mask0).loss_list := by
  constructor <;> rfl

/-- C7: one shift replaces a sequence by its left-shift with one zero-pad
appended (length unchanged for the non-empty sequences the rollout
processes); after `k` shifts position 0 holds the original position-`k`
content, after three shifts the last three positions hold the pad, and the
rollout's non-final steps apply exactly this shift to `logits`,
`input_ids` and `loss_mask`. -/
theorem C7_shift_phase {α ι : Type} (xs : List α) (pad : α) (k : Nat)
    (p : RolloutParams α ι) (st : RolloutState α ι)
    (hS : 3 ≤ xs.length) :
    (shiftLeft xs pad).length = xs.length
    ∧ (k < xs.length → (shiftIter pad k xs)[0]? = xs[k]?)
    ∧ (∀ j, xs.length - 3 ≤ j → j < xs.length →
        (shiftIter pad 3 xs)[j]? = some pad)
    ∧ (∀ i, i < 3 →
        (rolloutStep p st i).logits = shiftLeft st.logits p.zeroLogit
        ∧ (rolloutStep p st i).input_ids = shiftLeft st.input_ids p.zeroId
        ∧ (rolloutStep p st i).loss_mask
            = st.loss_mask.map (fun lm => shiftLeft lm 0)) := by
  refine ⟨?_, ?_, ?_, ?_⟩
  · simp [shiftLeft]
    omega
  · intro hk
    rw [shiftIter_eq_drop_append pad k xs (le_of_lt hk)]
    rw [List.getElem?_append_left (by simp; omega)]
    rw [List.getElem?_drop, Nat.add_zero]
  · intro j hj1 hj2
    rw [shiftIter_eq_drop_append pad 3 xs hS]
    rw [List.getElem?_append_right (by simp; omega)]
    rw [List.length_drop]
    exact List.getElem?_replicate_of_lt (by omega)
  · intro i hi
    simp [rolloutStep, hi]

/-- C7 witness: after two shifts of `[1,2,3,4]` (pad 0) position 0 holds
the original position-2 content. -/
theorem C7_shift_phase_witness :
    (shiftIter (0 : ℚ) 2 [1, 2, 3, 4])[0]? = some 3 := by
  have h := (C7_shift_phase [(1 : ℚ), 2, 3, 4] 0 2 sampleParams sampleState
    (by norm_num)).2.1 (by norm_num)
  rw [h]
  rfl

/-- C8: the running square attention mask is monotonically restricted
within one forward call: once an entry equals the blocking sentinel
`finfo.min` after `k` steps, it still equals it after any `l ≥ k` steps,
and in particular (sentinel being nonzero) is never reset to the allowed
value 0. -/
theorem C8_mask_monotone_restriction {α ι : Type} (p : RolloutParams α ι)
    (st : RolloutState α ι) (k l r c : Nat) (hkl : k ≤ l)
    (hblocked : (rolloutIter p st k).attn_mask r c = p.fmin) :
    (rolloutIter p st l).attn_mask r c = p.fmin
    ∧ (p.fmin ≠ 0 → (rolloutIter p st l).attn_mask r c ≠ 0) := by
  have key : ∀ n, (rolloutIter p st (k + n)).attn_mask r c = p.fmin := by
    intro n
    induction n with
    | zero => simpa using hblocked
    | succ n ih =>
      rw [show k + (n + 1) = (k + n) + 1 by omega, rolloutIter_succ]
      exact rolloutStep_attn_mask_fmin p _ _ r c ih
  have hl := key (l - k)
  rw [show k + (l - k) = l by omega] at hl
  exact ⟨hl, fun hne => hl ▸ hne⟩

/-- C8 witness: entry (0,0), blocked by the step-0 diagonal write, is
still the sentinel `-1` (and not 0) after all remaining steps. -/
theorem C8_mask_monotone_restriction_witness :
    (rolloutIter sampleParams sampleState 4).attn_mask 0 0 = (-1 : ℚ)
    ∧ (rolloutIter sampleParams sampleState 4).attn_mask 0 0 ≠ 0 := by
  have h := C8_mask_monotone_restriction sampleParams sampleState 1 4 0 0
    (by norm_num) (by rfl)
  exact ⟨h.1, h.2 (by norm_num [sampleParams])⟩

/-- C10: the `logits` field returned by the forward call is the base
logits shifted left three times with a zero slice appended after each
shift (so the last three positions are the zero pad), while `eagle_logits`
is the final (fourth) step's draft output. -/
theorem C10_returned_logits_shifted {α ι : Type} (p : RolloutParams α ι)
    (logits0 : List α) (input_ids0 : List ι) (lm0 : Option (List ℚ))
    (mask0 : Nat → Nat → ℚ) :
    (forwardRollout p logits0 input_ids0 lm0 mask0).logits
        = shiftIter p.zeroLogit 3 logits0
    ∧ (forwardRollout p logits0 input_ids0 lm0 mask0).eagle_logits
        = p.draft 3
    ∧ (3 ≤ logits0.length → ∀ j, logits0.length - 3 ≤ j →
        j < logits0.length →
        (forwardRollout p logits0 input_ids0 lm0 mask0).logits[j]?
          = some p.zeroLogit) := by
  have hlog : (forwardRollout p logits0 input_ids0 lm0 mask0).logits
      = shiftIter p.zeroLogit 3 logits0 := by
    cases lm0 <;> rfl
  have heag : (forwardRollout p logits0 input_ids0 lm0 mask0).eagle_logits
      = p.draft 3 := by
    cases lm0 <;> rfl
  refine ⟨hlog, heag, ?_⟩
  intro hS j hj1 hj2
  rw [hlog, shiftIter_eq_drop_append _ 3 _ hS]
  rw [List.getElem?_append_right (by simp; omega)]
  rw [List.length_drop]
  exact List.getElem?_replicate_of_lt (by omega)

/-- C10 witness: on a length-4 base logits list, the returned position 3
is the zero pad. -/
theorem C10_returned_logits_shifted_witness :
    (forwardRollout sampleParams [1, 2, 3, 4] [5, 6, 7, 8] none
      (fun _ _ => 0)).logits[3]? = some (0 : ℚ) := by
  have h := (C10_returned_logits_shifted sampleParams [(1 : ℚ), 2, 3, 4]
    [(5 : ℚ), 6, 7, 8] none (fun _ _ => 0)).2.2 (by norm_num) 3
    (by norm_num) (by norm_num)
  simpa using h

/-- C9: the modified draft decoder layer returns only the transformed
hidden state — the MLP of the post-attention normalisation of the
self-attention output of the concatenation of the two normalised streams —
and its output depends on the raw input streams only through their
normalisations, i.e. no residual addition of either input stream. -/
theorem C9_no_residual {V W : Type} (ops : DraftLayerOps V W)
    (h e h2 e2 : V)
    (hh : ops.hidden_norm h2 = ops.hidden_norm h)
    (he : ops.input_layernorm e2 = ops.input_layernorm e) :
    decoderLayerForward ops h e
        = ops.mlp (ops.post_attention_layernorm (ops.self_attn
            (ops.cat (ops.input_layernorm e) (ops.hidden_norm h))))
    ∧ decoderLayerForward ops h2 e2 = decoderLayerForward ops h e := by
  constructor
  · rfl
  · simp [decoderLayerForward, hh, he]

/-- C9 witness: with constant normalisations, distinct raw inputs give
identical layer outputs — a residual addition of either stream would
separate them. -/
theorem C9_no_residual_witness :
    decoderLayerForward sampleOps 3 4 = decoderLayerForward sampleOps 1 2 :=
  (C9_no_residual sampleOps 1 2 3 4 rfl rfl).2

/-- C5: with `past_key_values_length = 0`, the tree attention mask builder
returns the input mask unchanged. -/
theorem C5_cache_zero_identity (m : AttnMask) (s : Nat) (fmin : ℚ) :
    prepTreeMask m s 0 fmin = m := by
  simp [prepTreeMask]

/-- C4: for a cache of positive length and positive step length, the
builder keeps the shape fields except for extending the source width by
`cache_len`, copies the input mask into the low `src_len` columns, sets
exactly the positions `(i, src_len + k·seq_lens + i)` for whole blocks
`k < cache_len / seq_lens` and `i < min(tgt_len, seq_lens)` to the allowed
value 0 in the extended columns (so a remainder block contributes no
allowed entries), fills every other extended-column entry with the
sentinel `finfo.min`, and hence places exactly
`(cache_len / seq_lens) · min(tgt_len, seq_lens)` allowed entries in the
extended region. -/
theorem C4_tree_mask_blocks (m : AttnMask) (s pastLen : Nat) (fmin : ℚ)
    (b h : Nat) (hpast : 0 < pastLen) (hs : 0 < s) (hfmin : fmin ≠ 0) :
    (prepTreeMask m s pastLen fmin).bsz = m.bsz
    ∧ (prepTreeMask m s pastLen fmin).numHeads = m.numHeads
    ∧ (prepTreeMask m s pastLen fmin).tgtLen = m.tgtLen
    ∧ (prepTreeMask m s pastLen fmin).srcLen = m.srcLen + pastLen
    ∧ (∀ r c, r < m.tgtLen → c < m.srcLen →
        (prepTreeMask m s pastLen fmin).entry b h r c = m.entry b h r c)
    ∧ (∀ r c, m.srcLen ≤ c →
        ((prepTreeMask m s pastLen fmin).entry b h r c = 0 ↔
          ∃ k, k < pastLen / s ∧ r < min m.tgtLen s ∧
            c = m.srcLen + k * s + r))
    ∧ (∀ r c, m.srcLen ≤ c →
        (¬∃ k, k < pastLen / s ∧ r < min m.tgtLen s ∧
            c = m.srcLen + k * s + r) →
        (prepTreeMask m s pastLen fmin).entry b h r c = fmin)
    ∧ ((Finset.range m.tgtLen ×ˢ
          Finset.Ico m.srcLen (m.srcLen + pastLen)).filter
          (fun q => (prepTreeMask m s pastLen fmin).entry b h q.1 q.2 = 0)).card
        = pastLen / s * min m.tgtLen s := by
  have hpast2 : pastLen ≠ 0 := hpast.ne'
  have hent := prepTreeMask_entry m s pastLen fmin hpast2 b h
  have hshape : prepTreeMask m s pastLen fmin =
      { bsz := m.bsz, numHeads := m.numHeads, tgtLen := m.tgtLen,
        srcLen := m.srcLen + pastLen,
        entry := (prepTreeMask m s pastLen fmin).entry } := by
    simp [prepTreeMask, hpast2]
  have hcopy : ∀ r c, c < m.srcLen →
      (prepTreeMask m s pastLen fmin).entry b h r c = m.entry b h r c := by
    intro r c hc
    rw [hent]
    have hnmem : ¬(r, c) ∈ treeWrites m.srcLen s pastLen m.tgtLen := by
      rw [mem_treeWrites]
      rintro ⟨k, _, _, hceq⟩
      omega
    rw [if_neg hnmem, if_pos hc]
  have hiff : ∀ r c, m.srcLen ≤ c →
      ((prepTreeMask m s pastLen fmin).entry b h r c = 0 ↔
        ∃ k, k < pastLen / s ∧ r < min m.tgtLen s ∧
          c = m.srcLen + k * s + r) := by
    intro r c hc
    rw [hent, ← mem_treeWrites]
    by_cases hmem : (r, c) ∈ treeWrites m.srcLen s pastLen m.tgtLen
    · simp [hmem]
    · rw [if_neg hmem, if_neg (by omega)]
      simp [hmem, hfmin]
  have hblocked : ∀ r c, m.srcLen ≤ c →
      (¬∃ k, k < pastLen / s ∧ r < min m.tgtLen s ∧
          c = m.srcLen + k * s + r) →
      (prepTreeMask m s pastLen fmin).entry b h r c = fmin := by
    intro r c hc hnm
    rw [hent, if_neg (by rw [mem_treeWrites]; exact hnm), if_neg (by omega)]
  refine ⟨by rw [hshape], by rw [hshape], by rw [hshape], by rw [hshape],
    fun r c hr hc => hcopy r c hc, hiff, hblocked, ?_⟩
  have himg : (Finset.range m.tgtLen ×ˢ
        Finset.Ico m.srcLen (m.srcLen + pastLen)).filter
        (fun q => (prepTreeMask m s pastLen fmin).entry b h q.1 q.2 = 0)
      = Finset.image
          (fun ki : Nat × Nat => (ki.2, m.srcLen + ki.1 * s + ki.2))
          (Finset.range (pastLen / s) ×ˢ Finset.range (min m.tgtLen s)) := by
    ext q
    obtain ⟨r, c⟩ := q
    simp only [Finset.mem_filter, Finset.mem_product, Finset.mem_range,
      Finset.mem_Ico, Finset.mem_image, Prod.ext_iff]
    constructor
    · rintro ⟨⟨hr, hc1, hc2⟩, hzero⟩
      obtain ⟨k, hk, hrlt, hceq⟩ := (hiff r c hc1).mp hzero
      exact ⟨(k, r), ⟨hk, hrlt⟩, rfl, hceq.symm⟩
    · rintro ⟨⟨k, i⟩, ⟨hk, hi⟩, hir, hic⟩
      dsimp only at hk hi hir hic
      have hcl : m.srcLen + k * s + i < m.srcLen + pastLen := by
        have h1 : (k + 1) * s ≤ pastLen / s * s := Nat.mul_le_mul_right _ hk
        have h2 : pastLen / s * s ≤ pastLen := Nat.div_mul_le_self _ _
        have h3 : i < s := lt_of_lt_of_le hi (Nat.min_le_right _ _)
        have h4 : k * s + i < (k + 1) * s := by rw [Nat.succ_mul]; omega
        omega
      have hrtgt : i < m.tgtLen := lt_of_lt_of_le hi (Nat.min_le_left _ _)
      refine ⟨⟨by omega, by omega, by omega⟩, ?_⟩
      exact (hiff r c (by omega)).mpr ⟨k, hk, by omega, by omega⟩
  rw [himg, Finset.card_image_of_injOn, Finset.card_product,
    Finset.card_range, Finset.card_range]
  rintro ⟨k1, i1⟩ _ ⟨k2, i2⟩ _ heq
  obtain ⟨h1, h2⟩ := Prod.ext_iff.mp heq
  simp only at h1 h2
  have hmul : k1 * s = k2 * s := by omega
  have hkk := Nat.eq_of_mul_eq_mul_right hs hmul
  simp only [Prod.ext_iff]
  exact ⟨hkk, h1⟩

/-- C4 witness: extending a 2×2 mask by a cache of length 5 with step
length 2 yields `⌊5/2⌋ · min(2,2) = 4` allowed extended entries. -/
theorem C4_tree_mask_blocks_witness :
    ((Finset.range sampleMask.tgtLen ×ˢ
        Finset.Ico sampleMask.srcLen (sampleMask.srcLen + 5)).filter
        (fun q => (prepTreeMask sampleMask 2 5 (-1)).entry 0 0 q.1 q.2
          = 0)).card = 4 := by
  have h := (C4_tree_mask_blocks sampleMask 2 5 (-1) 0 0 (by norm_num)
    (by norm_num) (by norm_num)).2.2.2.2.2.2.2
  simpa using h

/-- C2 counterexample: with draft logits identical to backbone logits,
draft hidden states identical to backbone hidden states, and an all-ones
mask (batch 1, sequence 1, vocab 2, hidden 1, all tensors zero), the
classification loss returned by `_eagle_loss` is `log 2 / (1 + 1e-5)`,
not 0 as the claim states. -/
theorem C2_identical_inputs_counterexample :
    (eagleLoss 1 1 2 1 (fun _ _ _ => 0) (fun _ _ _ => 0)
      (fun _ _ _ => 0) (fun _ _ _ => 0) (fun _ _ => 1)).2 ≠ 0 := by
  simp only [eagleLoss, softmax, logSoftmax]
  simp [Fin.sum_univ_two, Real.exp_zero]
  norm_num

/-- C2 amended: on identical draft/backbone tensors with an all-ones mask,
the regression loss is exactly 0, while the classification loss equals the
normalized sum of Shannon entropies of the softmaxed backbone logits,
`(Σ_{b,s} H(softmax(logits_{b,s}))) / (B·S + 1e-5)` — which is 0 only for
degenerate distributions, not in general. -/
theorem C2_identical_inputs_amended (B S V H : Nat)
    (hidden : Fin B → Fin S → Fin H → ℝ)
    (logits : Fin B → Fin S → Fin V → ℝ) :
    (eagleLoss B S V H hidden logits hidden logits (fun _ _ => 1)).1 = 0
    ∧ (eagleLoss B S V H hidden logits hidden logits (fun _ _ => 1)).2
        = (∑ b, ∑ s, shannonEntropy (softmax (logits b s)))
          / ((B * S : ℝ) + 1 / 100000) := by
  have hmask : (∑ _b : Fin B, ∑ _s : Fin S, (1 : ℝ)) = (B * S : ℝ) := by
    simp [Finset.sum_const, Finset.card_univ]
  constructor
  · simp [eagleLoss, smoothL1]
  · simp only [eagleLoss, one_mul, sum_softmax_logSoftmax, hmask]
    simp
